import Mathlib

/-!
Verification of the evmrs EVM interpreter core against its specification.

The Rust sources are shallowly embedded: byte sequences become `List Nat`
(each element a byte value), the 256-bit word type `u256` becomes `Nat`
(its big-endian byte decoding is made explicit), fallible operations return
`Option`/`Except`, and a Rust panic is modelled as `Option.none`.  The
keccak-256 primitive is external to the repository and is therefore taken
as a parameter of the definitions that use it.
-/

namespace Tosca

/-- Big-endian interpretation of a byte sequence as an unsigned integer,
mirroring `u256::from_be_bytes`. -/
def u256FromBeBytes (bs : List Nat) : Nat :=
  bs.foldl (fun acc b => acc * 256 + b) 0

/-- The keccak-256 primitive: maps a byte sequence to its 32-byte digest.
It is external to the repository, so definitions take it as a parameter. -/
def Keccak : Type := List Nat → List Nat

/-- Model of `Cache<K, V>` from `types/cache.rs`, i.e. a
`Mutex<LruCache<K, V>>`.  The entry list is ordered most-recently-used
first and is bounded by `cap`; `Cache::new` builds the capacity from a
`NonZeroUsize`, so every constructed cache has `cap ≥ 1`. -/
structure Cache where
  entries : List (List Nat × Nat)
  cap : Nat
deriving DecidableEq

/-- Lookup of a key in the entry list of an LRU cache. -/
def cacheLookup : List (List Nat × Nat) → List Nat → Option Nat
  | [], _ => none
  | (k, v) :: rest, key => if k = key then some v else cacheLookup rest key

/-- `Cache::get_or_insert_ref` (via `LruCache::get_or_insert_ref`): on a
hit the entry is promoted to most-recently-used and its value returned; on
a miss the value is computed with `f`, inserted as most-recently-used, and
the least-recently-used entry is evicted if the capacity would be
exceeded. -/
def Cache.get_or_insert_ref (c : Cache) (key : List Nat) (f : Unit → Nat) :
    Nat × Cache :=
  match cacheLookup c.entries key with
  | some v =>
      (v, ⟨(key, v) :: c.entries.filter (fun e => decide (e.1 ≠ key)), c.cap⟩)
  | none =>
      let v := f ()
      (v, ⟨((key, v) :: c.entries).take c.cap, c.cap⟩)

/-- `Cache::new(size)`: `NonZeroUsize::new(size).unwrap()` panics when
`size == 0`; a panic is modelled by `none`. -/
def Cache.new (size : Nat) : Option Cache :=
  if size = 0 then none else some ⟨[], size⟩

/-- The `HashCache` of `types/hash_cache.rs` (feature `hash-cache`
enabled): one LRU sub-cache for 32-byte inputs and one for 64-byte
inputs. -/
structure HashCache where
  hash_cache_32 : Cache
  hash_cache_64 : Cache
deriving DecidableEq

/-- `HashCache::sha3`: keccak-256 the data and interpret the 32-byte
digest as a big-endian `u256`. -/
def HashCache.sha3 (keccak : Keccak) (data : List Nat) : Nat :=
  u256FromBeBytes (keccak data)

/-- `HashCache::hash`: inputs of length 32 or 64 go through the
corresponding LRU sub-cache; any other length is hashed directly without
caching. -/
def HashCache.hash (keccak : Keccak) (hc : HashCache) (data : List Nat) :
    Nat × HashCache :=
  if data.length = 32 then
    let r := hc.hash_cache_32.get_or_insert_ref data
      (fun _ => HashCache.sha3 keccak data)
    (r.1, { hc with hash_cache_32 := r.2 })
  else if data.length = 64 then
    let r := hc.hash_cache_64.get_or_insert_ref data
      (fun _ => HashCache.sha3 keccak data)
    (r.1, { hc with hash_cache_64 := r.2 })
  else
    (HashCache.sha3 keccak data, hc)

/-- `HashCache::new(size)`: builds both sub-caches with `Cache::new`, so a
zero size panics (modelled by `none`). -/
def HashCache.new (size : Nat) : Option HashCache :=
  match Cache.new size, Cache.new size with
  | some c32, some c64 => some ⟨c32, c64⟩
  | _, _ => none

/-- `HashCache::default()`: `HashCache::new(1024)` (the default cache
size), which succeeds since 1024 is nonzero. -/
def HashCache.mkDefault : HashCache := ⟨⟨[], 1024⟩, ⟨[], 1024⟩⟩

/-- Well-formedness of a keccak sub-cache: the capacity is at least one
(guaranteed by `NonZeroUsize` in `Cache::new`) and every cached value is
the keccak-256 digest of its key. -/
def Cache.WF (keccak : Keccak) (c : Cache) : Prop :=
  1 ≤ c.cap ∧ ∀ kv ∈ c.entries, kv.2 = HashCache.sha3 keccak kv.1

/-- Well-formedness of a `HashCache`: both sub-caches are well-formed. -/
def HashCache.WF (keccak : Keccak) (hc : HashCache) : Prop :=
  hc.hash_cache_32.WF keccak ∧ hc.hash_cache_64.WF keccak

theorem cacheLookup_mem {l : List (List Nat × Nat)} {key : List Nat}
    {v : Nat} (h : cacheLookup l key = some v) : (key, v) ∈ l := by
  induction l with
  | nil => simp [cacheLookup] at h
  | cons kv rest ih =>
    obtain ⟨k, w⟩ := kv
    by_cases hk : k = key
    · subst hk
      simp only [cacheLookup, if_pos rfl] at h
      cases h
      exact List.mem_cons_self _ _
    · simp only [cacheLookup, if_neg hk] at h
      exact List.mem_cons_of_mem _ (ih h)

theorem get_or_insert_ref_spec (keccak : Keccak) (c : Cache)
    (key : List Nat) (hWF : c.WF keccak) :
    (c.get_or_insert_ref key (fun _ => HashCache.sha3 keccak key)).1
        = HashCache.sha3 keccak key
    ∧ (c.get_or_insert_ref key (fun _ => HashCache.sha3 keccak key)).2.WF keccak
    ∧ cacheLookup
        (c.get_or_insert_ref key (fun _ => HashCache.sha3 keccak key)).2.entries
        key = some (HashCache.sha3 keccak key) := by
  obtain ⟨hcap, hvals⟩ := hWF
  unfold Cache.get_or_insert_ref
  cases h : cacheLookup c.entries key with
  | some v =>
    have hv : v = HashCache.sha3 keccak key := hvals _ (cacheLookup_mem h)
    subst hv
    refine ⟨rfl, ⟨hcap, ?_⟩, ?_⟩
    · intro kv hkv
      rcases List.mem_cons.mp hkv with hhead | htail
      · subst hhead; rfl
      · exact hvals _ (List.mem_of_mem_filter htail)
    · simp [cacheLookup]
  | none =>
    obtain ⟨m, hm⟩ := Nat.exists_eq_add_of_le hcap
    refine ⟨rfl, ⟨hcap, ?_⟩, ?_⟩
    · intro kv hkv
      have hkv' := List.mem_of_mem_take hkv
      rcases List.mem_cons.mp hkv' with hhead | htail
      · subst hhead; rfl
      · exact hvals _ htail
    · dsimp only
      rw [hm, Nat.add_comm, List.take_succ_cons]
      simp [cacheLookup]

theorem HashCache.hash_eq_32 (keccak : Keccak) (hc : HashCache)
    (data : List Nat) (h32 : data.length = 32) :
    HashCache.hash keccak hc data =
      ((hc.hash_cache_32.get_or_insert_ref data
          (fun _ => HashCache.sha3 keccak data)).1,
       { hc with hash_cache_32 := (hc.hash_cache_32.get_or_insert_ref data
          (fun _ => HashCache.sha3 keccak data)).2 }) := by
  unfold HashCache.hash
  rw [if_pos h32]

theorem HashCache.hash_eq_64 (keccak : Keccak) (hc : HashCache)
    (data : List Nat) (h32 : data.length ≠ 32) (h64 : data.length = 64) :
    HashCache.hash keccak hc data =
      ((hc.hash_cache_64.get_or_insert_ref data
          (fun _ => HashCache.sha3 keccak data)).1,
       { hc with hash_cache_64 := (hc.hash_cache_64.get_or_insert_ref data
          (fun _ => HashCache.sha3 keccak data)).2 }) := by
  unfold HashCache.hash
  rw [if_neg h32, if_pos h64]

theorem HashCache.hash_eq_other (keccak : Keccak) (hc : HashCache)
    (data : List Nat) (h32 : data.length ≠ 32) (h64 : data.length ≠ 64) :
    HashCache.hash keccak hc data = (HashCache.sha3 keccak data, hc) := by
  unfold HashCache.hash
  rw [if_neg h32, if_neg h64]

/-- C1: for every byte sequence `x`, `HashCache::hash(x)` equals the raw
keccak-256 digest of `x` interpreted as a big-endian u256; if the length
of `x` is 32 or 64 the result goes through the corresponding LRU sub-cache
(after the call the digest is cached there, the other sub-cache is
untouched; on a hit the cached value is returned, on a miss it is computed
and inserted), any other length is hashed directly with the whole cache
state unchanged, and a later call with the same input returns the
first-computed result. -/
theorem HashCache.hash_correct (keccak : Keccak) (hc : HashCache)
    (data : List Nat) (hWF : hc.WF keccak) :
    (HashCache.hash keccak hc data).1 = u256FromBeBytes (keccak data)
    ∧ (HashCache.hash keccak hc data).2.WF keccak
    ∧ (data.length ≠ 32 → data.length ≠ 64 →
        (HashCache.hash keccak hc data).2 = hc)
    ∧ (data.length = 32 →
        (HashCache.hash keccak hc data).2.hash_cache_64 = hc.hash_cache_64
        ∧ cacheLookup (HashCache.hash keccak hc data).2.hash_cache_32.entries
            data = some (u256FromBeBytes (keccak data)))
    ∧ (data.length = 64 →
        (HashCache.hash keccak hc data).2.hash_cache_32 = hc.hash_cache_32
        ∧ cacheLookup (HashCache.hash keccak hc data).2.hash_cache_64.entries
            data = some (u256FromBeBytes (keccak data)))
    ∧ (HashCache.hash keccak (HashCache.hash keccak hc data).2 data).1
        = (HashCache.hash keccak hc data).1 := by
  obtain ⟨hWF32, hWF64⟩ := hWF
  by_cases h32 : data.length = 32
  · have hs := get_or_insert_ref_spec keccak hc.hash_cache_32 data hWF32
    have hs2 := get_or_insert_ref_spec keccak
      (hc.hash_cache_32.get_or_insert_ref data
        (fun _ => HashCache.sha3 keccak data)).2 data hs.2.1
    rw [HashCache.hash_eq_32 keccak hc data h32]
    refine ⟨hs.1, ⟨hs.2.1, hWF64⟩, fun h _ => absurd h32 h,
      fun _ => ⟨rfl, hs.2.2⟩,
      fun h64 => absurd (h32.symm.trans h64) (by norm_num), ?_⟩
    rw [HashCache.hash_eq_32 keccak _ data h32]
    exact hs2.1.trans hs.1.symm
  · by_cases h64 : data.length = 64
    · have hs := get_or_insert_ref_spec keccak hc.hash_cache_64 data hWF64
      have hs2 := get_or_insert_ref_spec keccak
        (hc.hash_cache_64.get_or_insert_ref data
          (fun _ => HashCache.sha3 keccak data)).2 data hs.2.1
      rw [HashCache.hash_eq_64 keccak hc data h32 h64]
      refine ⟨hs.1, ⟨hWF32, hs.2.1⟩, fun _ h => absurd h64 h,
        fun h => absurd h h32, fun _ => ⟨rfl, hs.2.2⟩, ?_⟩
      rw [HashCache.hash_eq_64 keccak _ data h32 h64]
      exact hs2.1.trans hs.1.symm
    · rw [HashCache.hash_eq_other keccak hc data h32 h64]
      exact ⟨rfl, ⟨hWF32, hWF64⟩, fun _ _ => rfl, fun h => absurd h h32,
        fun h => absurd h h64,
        by rw [HashCache.hash_eq_other keccak hc data h32 h64]⟩

/-- A concrete stand-in for the external keccak-256 primitive, used only
to instantiate theorems at concrete inputs. -/
def keccakConst : Keccak := fun _ => List.replicate 31 0 ++ [7]

theorem HashCache.hash_correct_witness :
    (HashCache.hash keccakConst HashCache.mkDefault [1, 2, 3]).1
      = u256FromBeBytes (keccakConst [1, 2, 3]) :=
  (HashCache.hash_correct keccakConst HashCache.mkDefault [1, 2, 3]
    ⟨⟨by decide, by intro kv hkv; simp [HashCache.mkDefault] at hkv⟩,
     ⟨by decide, by intro kv hkv; simp [HashCache.mkDefault] at hkv⟩⟩).1

/-- `CodeByteType` from the code analysis: classification of each original
code byte. -/
inductive CodeByteType where
  | opcodeByte
  | jumpDest
  | dataOrInvalid
deriving DecidableEq

/-- Failure kinds (`FailStatus` in `types/status_code.rs`); `try_jump` only
ever produces `badJumpDestination`. -/
inductive FailStatus where
  | outOfGas
  | stackUnderflow
  | stackOverflow
  | invalidInstruction
  | badJumpDestination
  | invalidMemoryAccess
  | staticModeViolation
  | callDepthExceeded
  | initCodeSizeLimit
  | contractSizeLimit
  | internalFail
deriving DecidableEq

/-- The classification-flavor `CodeReader` of `types/code_reader.rs`:
the code, its per-byte classification, and the program counter.  In this
flavor the analysis has one entry per code byte. -/
structure CodeReader where
  code : List Nat
  analysis : List CodeByteType
  pc : Nat
deriving DecidableEq

/-- `CodeReader::try_jump(dest)`: `u64::try_from(dest)` fails for values
not fitting a machine word; then the destination must be classified
`JumpDest` by the analysis; on failure the reader is unchanged, on success
the program counter becomes `dest`.  The first component is the `Result`
returned by the source, the second the reader after the call. -/
def CodeReader.try_jump (r : CodeReader) (dest : Nat) :
    Except FailStatus Unit × CodeReader :=
  if dest < 2 ^ 64 then
    if r.analysis.get? dest = some CodeByteType.jumpDest then
      (Except.ok (), { r with pc := dest })
    else
      (Except.error FailStatus.badJumpDestination, r)
  else
    (Except.error FailStatus.badJumpDestination, r)

/-- C2: `try_jump(dest)` returns `BadJumpDestination` exactly when `dest`
is not an original program counter classified as `JumpDest` — in
particular whenever `dest` does not fit in a machine word or lies at or
beyond the end of the analysed code; on failure the reader (and so its
program counter) is unchanged, and on success the program counter becomes
`dest`. -/
theorem CodeReader.try_jump_correct (r : CodeReader) (dest : Nat) :
    ((r.try_jump dest).1 = Except.error FailStatus.badJumpDestination
      ↔ ¬(dest < 2 ^ 64
            ∧ r.analysis.get? dest = some CodeByteType.jumpDest))
    ∧ (2 ^ 64 ≤ dest →
        (r.try_jump dest).1 = Except.error FailStatus.badJumpDestination)
    ∧ (r.analysis.length ≤ dest →
        (r.try_jump dest).1 = Except.error FailStatus.badJumpDestination)
    ∧ ((r.try_jump dest).1 = Except.error FailStatus.badJumpDestination →
        (r.try_jump dest).2 = r)
    ∧ ((r.try_jump dest).1 ≠ Except.error FailStatus.badJumpDestination →
        (r.try_jump dest).1 = Except.ok ()
        ∧ (r.try_jump dest).2 = { r with pc := dest }) := by
  unfold CodeReader.try_jump
  by_cases h1 : dest < 2 ^ 64
  · by_cases h2 : r.analysis.get? dest = some CodeByteType.jumpDest
    · rw [if_pos h1, if_pos h2]
      have hlt : dest < r.analysis.length := by
        rcases List.get?_eq_some.mp h2 with ⟨hl, _⟩
        exact hl
      exact ⟨⟨fun h => by simp at h, fun h => absurd ⟨h1, h2⟩ h⟩,
        fun h => absurd h1 (not_lt.mpr h),
        fun h => absurd hlt (not_lt.mpr h), fun h => by simp at h,
        fun _ => ⟨rfl, rfl⟩⟩
    · rw [if_pos h1, if_neg h2]
      exact ⟨⟨fun _ hc => h2 hc.2, fun _ => rfl⟩, fun _ => rfl, fun _ => rfl,
        fun _ => rfl, fun h => absurd rfl h⟩
  · rw [if_neg h1]
    exact ⟨⟨fun _ hc => h1 hc.1, fun _ => rfl⟩, fun _ => rfl, fun _ => rfl,
      fun _ => rfl, fun h => absurd rfl h⟩

theorem CodeReader.try_jump_correct_witness :
    ((CodeReader.mk [0x5b] [CodeByteType.jumpDest] 0).try_jump 0).1
        = Except.error FailStatus.badJumpDestination
      ↔ ¬((0 : Nat) < 2 ^ 64
            ∧ (CodeReader.mk [0x5b] [CodeByteType.jumpDest] 0).analysis.get? 0
                = some CodeByteType.jumpDest) :=
  (CodeReader.try_jump_correct (CodeReader.mk [0x5b] [CodeByteType.jumpDest] 0)
    0).1

/-- The value the classification flavor of `get_push_data::<N>` is
specified to produce: the `N` immediate bytes at `pc`, read big-endian,
bytes past the code end taken as zero. -/
def pushDataValue (N : Nat) (code : List Nat) (pc : Nat) : Nat :=
  u256FromBeBytes ((List.range N).map (fun i => code.getD (pc + i) 0))

/-- `CodeReader::get_push_data::<N>` (classification flavor): read
`data_len = min(N, code.len() - pc)` immediate bytes into a 32-byte buffer
at offset `32 - N`, interpret the buffer big-endian, and advance the
program counter by `N`.  The slice expression `code[pc..pc + data_len]`
panics when `pc` exceeds the code length; a panic is modelled by `none`. -/
def CodeReader.get_push_data (N : Nat) (r : CodeReader) :
    Option (Nat × CodeReader) :=
  if r.pc + min N (r.code.length - r.pc) ≤ r.code.length then
    some (u256FromBeBytes (List.replicate (32 - N) 0
        ++ (r.code.drop r.pc).take (min N (r.code.length - r.pc))
        ++ List.replicate (N - min N (r.code.length - r.pc)) 0),
      { r with pc := r.pc + N })
  else
    none

theorem foldlBe_init (x : Nat) (b : List Nat) :
    b.foldl (fun acc c => acc * 256 + c) x
      = x * 256 ^ b.length + b.foldl (fun acc c => acc * 256 + c) 0 := by
  induction b generalizing x with
  | nil => simp
  | cons c t ih =>
    simp only [List.foldl_cons, List.length_cons]
    rw [ih (x * 256 + c), ih (0 * 256 + c)]
    ring

theorem u256FromBeBytes_append (a b : List Nat) :
    u256FromBeBytes (a ++ b)
      = u256FromBeBytes a * 256 ^ b.length + u256FromBeBytes b := by
  unfold u256FromBeBytes
  rw [List.foldl_append, foldlBe_init]

theorem u256FromBeBytes_replicate_zero (k : Nat) :
    u256FromBeBytes (List.replicate k 0) = 0 := by
  induction k with
  | zero => rfl
  | succ n ih =>
    unfold u256FromBeBytes at ih ⊢
    simpa [List.replicate_succ] using ih

theorem range_map_getD (code : List Nat) (pc N : Nat)
    (hpc : pc ≤ code.length) :
    (List.range N).map (fun i => code.getD (pc + i) 0)
      = (code.drop pc).take (min N (code.length - pc))
        ++ List.replicate (N - min N (code.length - pc)) 0 := by
  apply List.ext_getElem
  · simp only [List.length_map, List.length_range, List.length_append,
      List.length_take, List.length_drop, List.length_replicate]
    omega
  · intro i hi1 hi2
    have hiN : i < N := by simpa using hi1
    simp only [List.getElem_map, List.getElem_range]
    by_cases hcase : i < min N (code.length - pc)
    · rw [List.getElem_append_left (by
        simp only [List.length_take, List.length_drop]; omega)]
      rw [List.getElem_take, List.getElem_drop,
        List.getD_eq_getElem code 0 (by omega)]
    · rw [List.getElem_append_right (by
        simp only [List.length_take, List.length_drop]; omega)]
      rw [List.getElem_replicate, List.getD_eq_default code 0 (by omega)]

/-- C3 counterexample: at a reader position past the end of the code the
source slice expression `&self.code[self.pc..self.pc + data_len]` panics
(start index out of range), instead of returning a zero-padded word. -/
theorem get_push_data_panics_past_end :
    (CodeReader.mk [] [] 1).get_push_data 1 = none := by
  decide

/-- C3 (amended): in the classification flavor, for every `N` in `1..=32`
and every reader position `pc` not exceeding the code length,
`get_push_data::<N>` returns the u256 given by the `N` immediate bytes
`code[pc..pc+N]` read big-endian with bytes past the code end taken as
zero, and advances the program counter by exactly `N`.  (For `pc` beyond
the code length the source panics on slice indexing.) -/
theorem CodeReader.get_push_data_correct (N : Nat) (r : CodeReader)
    (hN1 : 1 ≤ N) (hN2 : N ≤ 32) (hpc : r.pc ≤ r.code.length) :
    r.get_push_data N
      = some (pushDataValue N r.code r.pc, { r with pc := r.pc + N }) := by
  unfold CodeReader.get_push_data
  have hmin : min N (r.code.length - r.pc) ≤ r.code.length - r.pc :=
    Nat.min_le_right _ _
  rw [if_pos (by omega)]
  simp only [Option.some.injEq, Prod.mk.injEq]
  refine ⟨?_, by trivial⟩
  unfold pushDataValue
  rw [range_map_getD r.code r.pc N hpc, List.append_assoc,
    u256FromBeBytes_append, u256FromBeBytes_replicate_zero]
  ring

theorem CodeReader.get_push_data_correct_witness :
    (CodeReader.mk [0x60, 0xff] [CodeByteType.opcodeByte,
        CodeByteType.dataOrInvalid] 1).get_push_data 2
      = some (pushDataValue 2 [0x60, 0xff] 1,
          { CodeReader.mk [0x60, 0xff] [CodeByteType.opcodeByte,
              CodeByteType.dataOrInvalid] 1 with pc := 3 }) :=
  CodeReader.get_push_data_correct 2
    (CodeReader.mk [0x60, 0xff] [CodeByteType.opcodeByte,
      CodeByteType.dataOrInvalid] 1)
    (by decide) (by decide) (by decide)

/-- PUSH1..PUSH32 occupy the opcode range `0x60..=0x7f`. -/
def isPush (b : Nat) : Bool := decide (0x60 ≤ b) && decide (b ≤ 0x7f)

/-- Number of immediate bytes of a PUSH opcode byte. -/
def pushDataLen (b : Nat) : Nat := b - 0x5f

/-- Modelled from the spec: `code_analysis.rs` and `pc_map.rs` (the
rewritten fn-ptr-conversion-dispatch analysis and its `PcMap`) are not
among the provided sources.  Following §4.3 of the specification, the
analysis pass walks original opcode boundaries: a PUSHn opcode together
with its `n` immediate bytes collapses to a single cell, and every other
boundary byte (opcode, jump destination, or a byte of a no-op/invalid run
— a run of `m` such bytes becomes one `SkipNoOps` cell plus `m - 1`
filler cells, hence one cell per byte) yields exactly one cell.  The scan
records the pair (original pc, converted index) for every boundary.  The
extra fuel argument (instantiated with the code length, an upper bound on
the number of steps) makes the recursion structural. -/
def pcPairsF : Nat → List Nat → Nat → Nat → List (Nat × Nat)
  | 0, _, _, _ => []
  | _ + 1, [], _, _ => []
  | fuel + 1, b :: rest, i, c =>
    if isPush b then
      (i, c) :: pcPairsF fuel (rest.drop (pushDataLen b))
        (i + 1 + pushDataLen b) (c + 1)
    else
      (i, c) :: pcPairsF fuel rest (i + 1) (c + 1)

/-- Modelled from the spec: the `PcMap` accompanying a rewritten analysis,
a bijection between original PCs and rewritten indices represented by the
boundary pairs recorded by the analysis scan. -/
structure PcMap where
  pairs : List (Nat × Nat)

/-- First boundary pair with the given original pc. -/
def pairsLookupFst : List (Nat × Nat) → Nat → Option (Nat × Nat)
  | [], _ => none
  | e :: rest, p => if e.1 = p then some e else pairsLookupFst rest p

/-- First boundary pair with the given converted index. -/
def pairsLookupSnd : List (Nat × Nat) → Nat → Option (Nat × Nat)
  | [], _ => none
  | e :: rest, c => if e.2 = c then some e else pairsLookupSnd rest c

/-- Modelled from the spec: `PcMap::to_converted(orig) → idx`. -/
def PcMap.to_converted (m : PcMap) (p : Nat) : Nat :=
  ((pairsLookupFst m.pairs p).map Prod.snd).getD 0

/-- Modelled from the spec: `PcMap::to_ct(idx) → orig`. -/
def PcMap.to_ct (m : PcMap) (c : Nat) : Nat :=
  ((pairsLookupSnd m.pairs c).map Prod.fst).getD 0

/-- The `PcMap` of a code sequence. -/
def codePcMap (code : List Nat) : PcMap :=
  ⟨pcPairsF code.length code 0 0⟩

/-- A valid original opcode boundary: an original pc visited by the
analysis scan (i.e. not inside PUSH immediate data). -/
def validBoundary (code : List Nat) (p : Nat) : Prop :=
  p ∈ (pcPairsF code.length code 0 0).map Prod.fst

instance (code : List Nat) (p : Nat) : Decidable (validBoundary code p) :=
  inferInstanceAs (Decidable (p ∈ _))

/-- The rewritten-flavor `CodeReader` state relevant to the pc contract:
the stored program counter is a converted index. -/
structure CodeReaderFP where
  code : List Nat
  pcMap : PcMap
  pc : Nat

/-- `CodeReader::new` in the fn-ptr-conversion-dispatch flavor: the given
original pc is converted through `PcMap::to_converted`. -/
def CodeReaderFP.new (code : List Nat) (p : Nat) : CodeReaderFP :=
  ⟨code, codePcMap code, (codePcMap code).to_converted p⟩

/-- `CodeReader::pc` in the fn-ptr-conversion-dispatch flavor: the stored
converted pc is mapped back through `PcMap::to_ct`. -/
def CodeReaderFP.pcValue (r : CodeReaderFP) : Nat :=
  r.pcMap.to_ct r.pc

theorem pcPairsF_snd_ge (fuel : Nat) :
    ∀ (l : List Nat) (i c : Nat), ∀ q ∈ pcPairsF fuel l i c, c ≤ q.2 := by
  induction fuel with
  | zero => intro l i c q hq; simp [pcPairsF] at hq
  | succ n ih =>
    intro l i c q hq
    cases l with
    | nil => simp [pcPairsF] at hq
    | cons b rest =>
      unfold pcPairsF at hq
      by_cases hb : isPush b
      · rw [if_pos hb] at hq
        rcases List.mem_cons.mp hq with h | h
        · subst h; exact le_refl _
        · exact le_trans (Nat.le_succ c) (ih _ _ _ _ h)
      · rw [if_neg hb] at hq
        rcases List.mem_cons.mp hq with h | h
        · subst h; exact le_refl _
        · exact le_trans (Nat.le_succ c) (ih _ _ _ _ h)

theorem pairsLookupFst_mem {l : List (Nat × Nat)} {p : Nat}
    {e : Nat × Nat} (h : pairsLookupFst l p = some e) : e ∈ l := by
  induction l with
  | nil => simp [pairsLookupFst] at h
  | cons q rest ih =>
    unfold pairsLookupFst at h
    by_cases hq : q.1 = p
    · rw [if_pos hq] at h
      cases h
      exact List.mem_cons_self _ _
    · rw [if_neg hq] at h
      exact List.mem_cons_of_mem _ (ih h)

theorem find_head_tail {tail : List (Nat × Nat)} {i c p : Nat}
    (hge : ∀ q ∈ tail, c + 1 ≤ q.2)
    (hp : p ∈ ((i, c) :: tail).map Prod.fst)
    (ih : p ∈ tail.map Prod.fst →
      ∃ b, pairsLookupFst tail p = some (p, b)
        ∧ pairsLookupSnd tail b = some (p, b)) :
    ∃ b, pairsLookupFst ((i, c) :: tail) p = some (p, b)
      ∧ pairsLookupSnd ((i, c) :: tail) b = some (p, b) := by
  by_cases hpi : p = i
  · subst hpi
    exact ⟨c, by simp [pairsLookupFst], by simp [pairsLookupSnd]⟩
  · have hp' : p ∈ tail.map Prod.fst := by
      simp only [List.map_cons, List.mem_cons] at hp
      rcases hp with h | h
      · exact absurd h hpi
      · exact h
    obtain ⟨b, h1, h2⟩ := ih hp'
    have hbc : c + 1 ≤ b := hge _ (pairsLookupFst_mem h1)
    refine ⟨b, ?_, ?_⟩
    · unfold pairsLookupFst
      rw [if_neg (fun hh => hpi hh.symm)]
      exact h1
    · unfold pairsLookupSnd
      rw [if_neg (by simp only []; omega)]
      exact h2

theorem pcPairsF_find (fuel : Nat) :
    ∀ (l : List Nat) (i c p : Nat),
      p ∈ (pcPairsF fuel l i c).map Prod.fst →
      ∃ b, pairsLookupFst (pcPairsF fuel l i c) p = some (p, b)
        ∧ pairsLookupSnd (pcPairsF fuel l i c) b = some (p, b) := by
  induction fuel with
  | zero => intro l i c p hp; simp [pcPairsF] at hp
  | succ n ih =>
    intro l i c p hp
    cases l with
    | nil => simp [pcPairsF] at hp
    | cons b rest =>
      unfold pcPairsF at hp ⊢
      by_cases hb : isPush b
      · rw [if_pos hb] at hp ⊢
        exact find_head_tail (pcPairsF_snd_ge n _ _ _) hp (ih _ _ _ p)
      · rw [if_neg hb] at hp ⊢
        exact find_head_tail (pcPairsF_snd_ge n _ _ _) hp (ih _ _ _ p)

/-- C4: in the rewritten (fn-ptr-conversion-dispatch) flavor, for every
code and every valid original opcode boundary `p`, constructing a
`CodeReader` at original pc `p` and immediately asking for `pc()` yields
`p` again: `PcMap.to_ct (PcMap.to_converted p) = p`, so host-visible PCs
are always original PCs. -/
theorem CodeReaderFP.pc_roundtrip (code : List Nat) (p : Nat)
    (h : validBoundary code p) :
    (CodeReaderFP.new code p).pcValue = p
    ∧ (codePcMap code).to_ct ((codePcMap code).to_converted p) = p := by
  obtain ⟨b, h1, h2⟩ := pcPairsF_find code.length code 0 0 p h
  have : (codePcMap code).to_ct ((codePcMap code).to_converted p) = p := by
    unfold codePcMap PcMap.to_converted PcMap.to_ct
    simp [h1, h2]
  exact ⟨this, this⟩

theorem CodeReaderFP.pc_roundtrip_witness :
    (CodeReaderFP.new [0x60, 0x05, 0x01] 2).pcValue = 2
    ∧ (codePcMap [0x60, 0x05, 0x01]).to_ct
        ((codePcMap [0x60, 0x05, 0x01]).to_converted 2) = 2 :=
  CodeReaderFP.pc_roundtrip [0x60, 0x05, 0x01] 2 (by decide)

/-- Modelled from the spec: `opcode.rs` and the interpreter jumptable are
not among the provided sources.  The synthetic rewritten-flavor opcode
`Opcode::NoOp`; its concrete byte value is irrelevant to the claims. -/
def opcodeNoOp : Nat := 0xb0

/-- Modelled from the spec: the synthetic rewritten-flavor opcode
`Opcode::SkipNoOps`; its concrete byte value is irrelevant to the
claims. -/
def opcodeSkipNoOps : Nat := 0xb1

/-- `OpFnData` from `types/op_fn_data.rs`: an optional handler plus inline
u256 data.  A handler `interpreter::get_jumptable()[op]` is identified
here by its opcode byte `op` (the jumptable itself is outside the provided
sources). -/
structure OpFnData where
  func : Option Nat
  data : Nat
deriving DecidableEq

/-- `OpFnData::func(op, data)`: a cell holding the handler for `op` and
the given inline data. -/
def OpFnData.funcOp (op : Nat) (data : Nat) : OpFnData :=
  ⟨some op, data⟩

/-- `OpFnData::skip_no_ops_iter(count)`: one `SkipNoOps` cell whose inline
data is `count` (a `u64` cast of the `usize` count), chained with
`count - 1` repeated `NoOp` cells with inline data zero. -/
def OpFnData.skip_no_ops_iter (count : Nat) : List OpFnData :=
  OpFnData.funcOp opcodeSkipNoOps count
    :: List.replicate (count - 1) (OpFnData.funcOp opcodeNoOp 0)

/-- C5: for every run length `n ≥ 1` of adjacent no-op/invalid bytes,
`skip_no_ops_iter(n)` produces exactly `n` cells: the first is a
`SkipNoOps` cell whose inline data equals `n`, followed by `n - 1` filler
`NoOp` cells each with inline data zero. -/
theorem OpFnData.skip_no_ops_iter_correct (n : Nat) (h : 1 ≤ n) :
    (OpFnData.skip_no_ops_iter n).length = n
    ∧ (OpFnData.skip_no_ops_iter n).head?
        = some (OpFnData.funcOp opcodeSkipNoOps n)
    ∧ (OpFnData.funcOp opcodeSkipNoOps n).data = n
    ∧ (OpFnData.skip_no_ops_iter n).tail
        = List.replicate (n - 1) (OpFnData.funcOp opcodeNoOp 0)
    ∧ ∀ cell ∈ (OpFnData.skip_no_ops_iter n).tail,
        cell.func = some opcodeNoOp ∧ cell.data = 0 := by
  refine ⟨?_, rfl, rfl, rfl, ?_⟩
  · simp only [skip_no_ops_iter, List.length_cons, List.length_replicate]
    omega
  · intro cell hc
    have hcell := List.eq_of_mem_replicate hc
    rw [hcell]
    exact ⟨rfl, rfl⟩

theorem OpFnData.skip_no_ops_iter_correct_witness :
    (OpFnData.skip_no_ops_iter 3).length = 3 :=
  (OpFnData.skip_no_ops_iter_correct 3 (by decide)).1

/-- `StepStatusCode` (`evmc_step_status_code`). -/
inductive StepStatusCode where
  | running
  | stopped
  | returned
  | reverted
  | failed
deriving DecidableEq

/-- The EVMC status codes relevant to the modelled entry points. -/
inductive StatusCode where
  | success
  | failure
  | revert
  | internalError
deriving DecidableEq

/-- The `StepResult` assembled by `EvmRs::step_n` (revisions are opaque
identifiers; byte buffers and the stack are value sequences). -/
structure StepResult where
  step_status_code : StepStatusCode
  status_code : StatusCode
  revision : Nat
  pc : Nat
  gas_left : Int
  gas_refund : Int
  output : List Nat
  stack : List Nat
  memory : List Nat
  last_call_return_data : List Nat
deriving DecidableEq

/-- The match inside `EvmRs::step_n` mapping the entry step status to the
final `status_code` of the early-returned result. -/
def mapStepStatus : StepStatusCode → StatusCode
  | StepStatusCode.running | StepStatusCode.stopped
  | StepStatusCode.returned => StatusCode.success
  | StepStatusCode.reverted => StatusCode.revert
  | StepStatusCode.failed => StatusCode.failure

/-- `EvmRs::step_n`: entered with a non-Running step status it returns
immediately — before the capability assertion, before the interpreter is
constructed and before the host context is touched — echoing its inputs;
the path that constructs an interpreter and runs it (code outside the
modelled core) is represented by `none`. -/
def step_n (revision : Nat) (step_status_code : StepStatusCode) (pc : Nat)
    (gas_refund : Int) (stack memory last_call_return_data : List Nat) :
    Option StepResult :=
  if step_status_code ≠ StepStatusCode.running then
    some {
      step_status_code := step_status_code,
      status_code := mapStepStatus step_status_code,
      revision := revision,
      pc := pc,
      gas_left := gas_refund,
      gas_refund := gas_refund,
      output := [],
      stack := stack,
      memory := memory,
      last_call_return_data := last_call_return_data }
  else
    none

/-- C6: every invocation of `step_n` whose step status argument is not
Running returns immediately (without constructing an interpreter or
touching the host — modelled by the early `some`) with the same step
status, and with `status_code` mapped as: Stopped and Returned map to
Success, Reverted to Revert, and Failed to Failure. -/
theorem step_n_early_status (revision : Nat) (ssc : StepStatusCode)
    (pc : Nat) (gr : Int) (stack memory lcrd : List Nat)
    (h : ssc ≠ StepStatusCode.running) :
    ∃ r : StepResult,
      step_n revision ssc pc gr stack memory lcrd = some r
      ∧ r.step_status_code = ssc
      ∧ (ssc = StepStatusCode.stopped ∨ ssc = StepStatusCode.returned →
          r.status_code = StatusCode.success)
      ∧ (ssc = StepStatusCode.reverted → r.status_code = StatusCode.revert)
      ∧ (ssc = StepStatusCode.failed → r.status_code = StatusCode.failure)
      := by
  unfold step_n
  rw [if_pos h]
  refine ⟨_, rfl, rfl, ?_, ?_, ?_⟩
  · rintro (hc | hc) <;> subst hc <;> rfl
  · intro hc; subst hc; rfl
  · intro hc; subst hc; rfl

theorem step_n_early_status_witness :
    ∃ r : StepResult,
      step_n 0 StepStatusCode.stopped 0 0 [] [] [] = some r
      ∧ r.step_status_code = StepStatusCode.stopped
      ∧ (StepStatusCode.stopped = StepStatusCode.stopped
            ∨ StepStatusCode.stopped = StepStatusCode.returned →
          r.status_code = StatusCode.success)
      ∧ (StepStatusCode.stopped = StepStatusCode.reverted →
          r.status_code = StatusCode.revert)
      ∧ (StepStatusCode.stopped = StepStatusCode.failed →
          r.status_code = StatusCode.failure) :=
  step_n_early_status 0 StepStatusCode.stopped 0 0 [] [] [] (by decide)

/-- C10: when `step_n` is entered with a non-Running step status, the
returned snapshot echoes its inputs unchanged — pc, gas refund, revision
and copies of the stack, memory and last-call-return-data arguments, with
empty output — and the returned `gas_left` equals the `gas_refund`
argument rather than any gas-remaining input. -/
theorem step_n_early_snapshot (revision : Nat) (ssc : StepStatusCode)
    (pc : Nat) (gr : Int) (stack memory lcrd : List Nat)
    (h : ssc ≠ StepStatusCode.running) :
    step_n revision ssc pc gr stack memory lcrd
      = some {
          step_status_code := ssc,
          status_code := mapStepStatus ssc,
          revision := revision,
          pc := pc,
          gas_left := gr,
          gas_refund := gr,
          output := [],
          stack := stack,
          memory := memory,
          last_call_return_data := lcrd } := by
  unfold step_n
  rw [if_pos h]

theorem step_n_early_snapshot_witness :
    step_n 7 StepStatusCode.reverted 5 11 [1] [2] [3]
      = some {
          step_status_code := StepStatusCode.reverted,
          status_code := mapStepStatus StepStatusCode.reverted,
          revision := 7,
          pc := 5,
          gas_left := 11,
          gas_refund := 11,
          output := [],
          stack := [1],
          memory := [2],
          last_call_return_data := [3] } :=
  step_n_early_snapshot 7 StepStatusCode.reverted 5 11 [1] [2] [3]
    (by decide)

/-- `ObserverType` selecting the observer used by `execute`/`step_n`. -/
inductive ObserverType where
  | noOp
  | logging
deriving DecidableEq

/-- `SetOptionError` from the evmc-vm crate. -/
inductive SetOptionError where
  | invalidKey
  | invalidValue
deriving DecidableEq

/-- The `CodeAnalysisCache` (a `Cache<u256, AnalysisContainer<_>>`); its
value type lives in `code_analysis.rs`, outside the provided sources, and
only the capacity matters for the claims below.  `Cache::new` builds a
`NonZeroUsize`, so a zero capacity panics (`none`). -/
structure CodeAnalysisCache where
  cap : Nat
deriving DecidableEq

/-- `CodeAnalysisCache::new(size)`: panics (models as `none`) when size is
zero, by `NonZeroUsize::new(size).unwrap()` in `Cache::new`. -/
def CodeAnalysisCache.new (size : Nat) : Option CodeAnalysisCache :=
  if size = 0 then none else some ⟨size⟩

/-- Modelled from the spec: the default capacity of the analysis cache is
set in `code_analysis.rs`, which is not among the provided sources; its
concrete value is irrelevant to the claims below. -/
def codeAnalysisCacheDefaultCap : Nat := 1024

/-- The `EvmRs` VM instance state touched by `set_option`. -/
structure EvmRs where
  observer_type : ObserverType
  hash_cache : HashCache
  code_analysis_cache_steppable : CodeAnalysisCache
  code_analysis_cache_non_steppable : CodeAnalysisCache
deriving DecidableEq

/-- `EvmRs::init`. -/
def EvmRs.init : EvmRs :=
  { observer_type := ObserverType.noOp,
    hash_cache := HashCache.mkDefault,
    code_analysis_cache_steppable := ⟨codeAnalysisCacheDefaultCap⟩,
    code_analysis_cache_non_steppable := ⟨codeAnalysisCacheDefaultCap⟩ }

/-- `str::parse::<usize>` on a 64-bit target: an optional leading `+`
followed by at least one ASCII decimal digit, rejecting anything else and
any value exceeding `usize::MAX = 2^64 - 1`.  (An intermediate overflow
implies the final value exceeds the bound, so checking the final value is
equivalent.) -/
def parseUsize (s : String) : Option Nat :=
  let ds := match s.toList with
    | '+' :: rest => rest
    | l => l
  if ds = [] then none
  else if ds.all Char.isDigit then
    let v := ds.foldl (fun acc c => acc * 10 + (c.toNat - Char.toNat '0')) 0
    if v < 2 ^ 64 then some v else none
  else none

/-- `EvmRs::set_option`: mirrors the `match (key, value)` of the source.
The result is `none` when the call panics (zero cache capacity), otherwise
`some` of the `Result` together with the updated instance. -/
def EvmRs.set_option (evm : EvmRs) (key value : String) :
    Option (Except SetOptionError EvmRs) :=
  if key = "logging" ∧ value = "true" then
    some (Except.ok { evm with observer_type := ObserverType.logging })
  else if key = "logging" ∧ value = "false" then
    some (Except.ok { evm with observer_type := ObserverType.noOp })
  else if key = "code-analysis-cache-size" then
    match parseUsize value with
    | some size =>
      match CodeAnalysisCache.new size, CodeAnalysisCache.new size with
      | some c1, some c2 =>
        some (Except.ok { evm with
          code_analysis_cache_steppable := c1,
          code_analysis_cache_non_steppable := c2 })
      | _, _ => none
    | none => some (Except.error SetOptionError.invalidValue)
  else if key = "hash-cache-size" then
    match parseUsize value with
    | some size =>
      match HashCache.new size with
      | some hc => some (Except.ok { evm with hash_cache := hc })
      | none => none
    | none => some (Except.error SetOptionError.invalidValue)
  else
    some (Except.ok evm)

theorem set_option_hash_eq (evm : EvmRs) (v : String) :
    evm.set_option ("hash-cache-size") v =
      match parseUsize v with
      | some size =>
        match HashCache.new size with
        | some hc => some (Except.ok { evm with hash_cache := hc })
        | none => none
      | none => some (Except.error SetOptionError.invalidValue) := by
  unfold EvmRs.set_option
  rw [if_neg (fun hc => absurd hc.1 (by decide)),
    if_neg (fun hc => absurd hc.1 (by decide)),
    if_neg (by decide), if_pos rfl]

theorem set_option_analysis_eq (evm : EvmRs) (v : String) :
    evm.set_option ("code-analysis-cache-size") v =
      match parseUsize v with
      | some size =>
        match CodeAnalysisCache.new size, CodeAnalysisCache.new size with
        | some c1, some c2 =>
          some (Except.ok { evm with
            code_analysis_cache_steppable := c1,
            code_analysis_cache_non_steppable := c2 })
        | _, _ => none
      | none => some (Except.error SetOptionError.invalidValue) := by
  unfold EvmRs.set_option
  rw [if_neg (fun hc => absurd hc.1 (by decide)),
    if_neg (fun hc => absurd hc.1 (by decide)),
    if_pos rfl]

theorem hashCache_new_pos {n : Nat} (h : 1 ≤ n) :
    HashCache.new n = some ⟨⟨[], n⟩, ⟨[], n⟩⟩ := by
  unfold HashCache.new Cache.new
  rw [if_neg (by omega)]

theorem analysisCache_new_pos {n : Nat} (h : 1 ≤ n) :
    CodeAnalysisCache.new n = some ⟨n⟩ := by
  unfold CodeAnalysisCache.new
  rw [if_neg (by omega)]

/-- C7 counterexample: the value "0" parses as an unsigned integer, yet
`set_option` with either cache-size key and value "0" does not return
success and rebuild the cache — it panics, because `Cache::new` calls
`NonZeroUsize::new(0).unwrap()`. -/
theorem set_option_zero_size_panics :
    parseUsize ("0") = some 0
    ∧ EvmRs.init.set_option ("hash-cache-size") ("0") = none
    ∧ EvmRs.init.set_option ("code-analysis-cache-size") ("0") = none :=
  ⟨rfl, rfl, rfl⟩

/-- C7 (amended): for the keys "code-analysis-cache-size" and
"hash-cache-size", `set_option` returns the typed error `InvalidValue` iff
the value does not parse as an unsigned integer (`usize`); every value
parsing to a nonzero integer returns success and rebuilds the
corresponding cache(s) with that capacity; a value parsing to zero makes
the rebuild panic on `NonZeroUsize::new(0).unwrap()`. -/
theorem set_option_cache_size_correct (evm : EvmRs) (v : String) :
    (evm.set_option ("hash-cache-size") v
        = some (Except.error SetOptionError.invalidValue)
      ↔ parseUsize v = none)
    ∧ (evm.set_option ("code-analysis-cache-size") v
        = some (Except.error SetOptionError.invalidValue)
      ↔ parseUsize v = none)
    ∧ (∀ n, parseUsize v = some n → 1 ≤ n →
        evm.set_option ("hash-cache-size") v
          = some (Except.ok { evm with hash_cache := ⟨⟨[], n⟩, ⟨[], n⟩⟩ })
        ∧ evm.set_option ("code-analysis-cache-size") v
          = some (Except.ok { evm with
              code_analysis_cache_steppable := ⟨n⟩,
              code_analysis_cache_non_steppable := ⟨n⟩ }))
    ∧ (parseUsize v = some 0 →
        evm.set_option ("hash-cache-size") v = none
        ∧ evm.set_option ("code-analysis-cache-size") v = none) := by
  rw [set_option_hash_eq, set_option_analysis_eq]
  cases hp : parseUsize v with
  | none =>
    exact ⟨by simp, by simp, fun n hn => by simp at hn, fun hn => by simp at hn⟩
  | some m =>
    dsimp only
    refine ⟨?_, ?_, ?_, ?_⟩
    · by_cases hm : 1 ≤ m
      · rw [hashCache_new_pos hm]
        simp
      · have hm0 : m = 0 := by omega
        subst hm0
        simp [HashCache.new, Cache.new]
    · by_cases hm : 1 ≤ m
      · rw [analysisCache_new_pos hm]
        simp
      · have hm0 : m = 0 := by omega
        subst hm0
        simp [CodeAnalysisCache.new]
    · intro n hn hn1
      have hnm : m = n := by
        simpa using hn
      subst hnm
      rw [hashCache_new_pos hn1, analysisCache_new_pos hn1]
      exact ⟨rfl, rfl⟩
    · intro hn
      have hm0 : m = 0 := by simpa using hn
      subst hm0
      exact ⟨rfl, rfl⟩

theorem set_option_cache_size_correct_witness :
    EvmRs.init.set_option ("hash-cache-size") ("100")
        = some (Except.error SetOptionError.invalidValue)
      ↔ parseUsize ("100") = none :=
  (set_option_cache_size_correct EvmRs.init ("100")).1

/-- C8: for every key outside logging and the two cache-size keys, and
every value, `set_option` returns success and is a no-op: the whole
instance state (observer type, code-analysis caches and hash cache) is
returned unchanged. -/
theorem set_option_unknown_key (evm : EvmRs) (key value : String)
    (h1 : key ≠ "logging") (h2 : key ≠ "code-analysis-cache-size")
    (h3 : key ≠ "hash-cache-size") :
    evm.set_option key value = some (Except.ok evm) := by
  unfold EvmRs.set_option
  rw [if_neg (fun hc => h1 hc.1), if_neg (fun hc => h1 hc.1),
    if_neg h2, if_neg h3]

theorem set_option_unknown_key_witness :
    EvmRs.init.set_option ("banana") ("42")
      = some (Except.ok EvmRs.init) :=
  set_option_unknown_key EvmRs.init ("banana") ("42")
    (by decide) (by decide) (by decide)

/-- The `ExecutionResult` assembled at the FFI boundary. -/
structure ExecutionResult where
  status_code : StatusCode
  gas_left : Int
  gas_refund : Int
  output : List Nat
  create_address : Option (List Nat)
deriving DecidableEq

/-- `__evmc_execute` from `ffi/evmc_vm.rs`: the inner execution runs under
`panic::catch_unwind`; `none` models a panicking inner execution and
`some r` a normal return with result `r`.  `unwrap_or` replaces a caught
panic by the internal-error result, so the entry point never unwinds
across the C boundary. -/
def evmcExecute (inner : Option ExecutionResult) : ExecutionResult :=
  inner.getD {
    status_code := StatusCode.internalError,
    gas_left := 0,
    gas_refund := 0,
    output := [],
    create_address := none }

/-- C9: a call to the execute FFI entry point whose inner execution panics
returns a result with status Internal error, zero gas left, zero gas
refund and empty output, instead of unwinding across the C boundary (the
function is total on the panic case). -/
theorem evmcExecute_panic_internal :
    evmcExecute none
      = { status_code := StatusCode.internalError, gas_left := 0,
          gas_refund := 0, output := [], create_address := none } := by
  unfold evmcExecute
  rfl

end Tosca
